import Mathlib

/-!
Verification of the range-indexed piecewise mapping pipeline of
`src/day05/src/main.rs` (module `giveaseedafertilizer`).

The Rust data model is embedded shallowly:
* `u64` values are modelled as `Nat` (no claim under study depends on
  64-bit overflow);
* `BTreeSet<SeedRange>` is modelled as a duplicate-free `List SeedRange`
  (insertion is membership-checked, see `insertSeedRange`); every property
  proved about it is insensitive to element order;
* a Rust `panic!` / `Option::unwrap` abort is modelled as `Option.none`
  on the result type of the function that would abort.
-/

namespace Day05

/-- Embeds `struct SeedRange` (src/day05/src/main.rs:24-28):
a block of `length` consecutive seed values starting at `start`. -/
structure SeedRange where
  start : Nat
  length : Nat
deriving DecidableEq, Repr

/-- Embeds `struct Transformation` (src/day05/src/main.rs:41-46):
one remapping rule `(destination_category, source_start_range, source_range)`. -/
structure Transformation where
  destination_category : Nat
  source_start_range : Nat
  source_range : Nat
deriving DecidableEq, Repr

/-- Embeds `struct TransformationMap` (src/day05/src/main.rs:36-39):
one layer, an ordered list of rules. -/
structure TransformationMap where
  transformations : List Transformation
deriving DecidableEq, Repr

/-- Embeds `struct Almanac` (src/day05/src/main.rs:18-22): the seed set
(`BTreeSet<SeedRange>`, modelled as a duplicate-free list) and the ordered
layers. -/
structure Almanac where
  seeds : List SeedRange
  transformation_maps : List TransformationMap
deriving DecidableEq, Repr

/-- The guard of `Transformation::apply_transformation`
(src/day05/src/main.rs:215-217): `v` lies in the rule's source interval
`[source_start_range, source_start_range + source_range)`. -/
abbrev Transformation.containsVal (t : Transformation) (v : Nat) : Prop :=
  t.source_start_range ≤ v ∧ v < t.source_start_range + t.source_range

/-- Embeds `Transformation::apply_transformation`
(src/day05/src/main.rs:214-223): `some (destination_category + delta)` when
the value is inside the source interval, `none` otherwise. -/
def Transformation.apply_transformation (t : Transformation) (v : Nat) :
    Option Nat :=
  if t.containsVal v then some (t.destination_category + (v - t.source_start_range))
  else none

/-- The loop body of `TransformationMap::apply_transformation`
(src/day05/src/main.rs:177-184): try each rule in order, return the first
`some` result, fall through to the identity. -/
def applyRules : List Transformation → Nat → Nat
  | [], v => v
  | t :: rest, v =>
    match t.apply_transformation v with
    | some r => r
    | none => applyRules rest v

/-- Embeds `TransformationMap::apply_transformation`
(src/day05/src/main.rs:176-185). -/
def TransformationMap.apply_transformation (tm : TransformationMap) (v : Nat) :
    Nat :=
  applyRules tm.transformations v

/-- The per-seed layer fold of
`Almanac::apply_transformations_and_keep_lower_result`
(src/day05/src/main.rs:130-134): apply every layer in order to one value. -/
def applyMaps (maps : List TransformationMap) (v : Nat) : Nat :=
  maps.foldl (fun r m => m.apply_transformation r) v

/-- The running-minimum update of
`Almanac::apply_transformations_and_keep_lower_result`
(src/day05/src/main.rs:136-138): replace `lower` when it is unset or the new
result is strictly smaller. -/
def lowerStep (lower : Option Nat) (r : Nat) : Option Nat :=
  match lower with
  | none => some r
  | some m => if r < m then some r else some m

/-- Embeds `Almanac::apply_transformations_and_keep_lower_result`
(src/day05/src/main.rs:126-143).  The outer fold is the loop over seed
ranges, the inner fold the loop `for seed in start..start+length`; the final
`lower_result.unwrap()` panic on an empty minimum is modelled by returning
`none`. -/
def Almanac.apply_transformations_and_keep_lower_result (a : Almanac) :
    Option Nat :=
  a.seeds.foldl
    (fun lower sr =>
      (List.range sr.length).foldl
        (fun lower i =>
          lowerStep lower (applyMaps a.transformation_maps (sr.start + i)))
        lower)
    none

/-- Embeds `BTreeSet::insert` on the derived structural order of `SeedRange`
(used at src/day05/src/main.rs:85-88): a set insert, i.e. a no-op when an
equal element is already present. -/
def insertSeedRange (s : List SeedRange) (x : SeedRange) : List SeedRange :=
  if x ∈ s then s else s ++ [x]

/-- The `SeedParsingMode::SeedRange` branch of `Almanac::from_input_stream`
(src/day05/src/main.rs:75-91): walk the seed numbers with their index,
remembering each even-indexed number as `last_seed` and inserting the range
`(last_seed, current)` at each odd index. -/
def seedRangeLoop : Nat → Nat → List SeedRange → List Nat → List SeedRange
  | _, _, acc, [] => acc
  | index, last_seed, acc, n :: rest =>
    if index % 2 = 0 then seedRangeLoop (index + 1) n acc rest
    else seedRangeLoop (index + 1) last_seed (insertSeedRange acc ⟨last_seed, n⟩) rest

/-- The seed set built by `Almanac::from_input_stream` in `SeedRange` mode
(src/day05/src/main.rs:75-91) from the already-tokenized numbers of the
`seeds:` line (`last_seed` starts at `0`, the accumulator set empty, the
index at `0`). -/
def parseSeedRanges (nums : List Nat) : List SeedRange :=
  seedRangeLoop 0 0 [] nums

/-- The consecutive `(start, length)` pairs of a number list, the final
number dropped when unpaired (specification-side description of the
`SeedRange`-mode pairing, to be proved equal to `seedRangeLoop`). -/
def pairsOf : List Nat → List SeedRange
  | a :: b :: rest => ⟨a, b⟩ :: pairsOf rest
  | _ => []

/-- All seed values denoted by a list of seed ranges, range by range, in the
enumeration order of the two loops at src/day05/src/main.rs:128-129. -/
def seedValues : List SeedRange → List Nat
  | [] => []
  | sr :: rest => (List.range sr.length).map (fun i => sr.start + i) ++ seedValues rest

/-- `v` is a seed value of the almanac: it lies in some seed range. -/
def Almanac.inSeedRanges (a : Almanac) (v : Nat) : Prop :=
  ∃ sr ∈ a.seeds, sr.start ≤ v ∧ v < sr.start + sr.length

/-- Embeds the rule-collecting loop of `TransformationMap::from`
(src/day05/src/main.rs:147-174) after line tokenization (each rule line is
modelled by its whitespace-separated numbers; the header regex and the I/O
error paths inspect only the text stream, never rule contents).  A rule line
is parsed by `Transformation::from` (src/day05/src/main.rs:189-212), whose
panic on a line without exactly three numbers is modelled as `none`; every
parsed rule is pushed with no further validation. -/
def TransformationMap.fromRuleLines (ruleLines : List (List Nat)) :
    Option TransformationMap :=
  (ruleLines.mapM fun line =>
    match line with
    | [d, s, l] => some (Transformation.mk d s l)
    | _ => none).map TransformationMap.mk

/-- Two rules have disjoint source intervals: no value is inside both. -/
def disjointSources (t1 t2 : Transformation) : Prop :=
  ∀ v, ¬ (t1.containsVal v ∧ t2.containsVal v)

/-- Instrumented step count of the rule loop of
`TransformationMap::apply_transformation` (src/day05/src/main.rs:177-183):
one unit per rule tried before (and including) the first match. -/
def applyRulesCost : List Transformation → Nat → Nat
  | [], _ => 0
  | t :: rest, v =>
    match t.apply_transformation v with
    | some _ => 1
    | none => 1 + applyRulesCost rest v

/-- Instrumented step count of the per-seed layer fold
(src/day05/src/main.rs:131-134): the rule-loop cost of each layer, applied
to the successively transformed value. -/
def pipelineCost : List TransformationMap → Nat → Nat
  | [], _ => 0
  | m :: rest, v =>
    applyRulesCost m.transformations v + pipelineCost rest (m.apply_transformation v)

/-- Instrumented step count of
`Almanac::apply_transformations_and_keep_lower_result`
(src/day05/src/main.rs:126-143): one unit per iteration of the
`for seed in start..start+length` loop plus that seed's pipeline cost. -/
def Almanac.evalCost (a : Almanac) : Nat :=
  ((seedValues a.seeds).map fun v => 1 + pipelineCost a.transformation_maps v).sum

/-- First-match characterization of the rule loop: the result comes from the
earliest rule whose source interval contains the value, and is the identity
when no rule matches. -/
theorem applyRules_eq_find (ts : List Transformation) (v : Nat) :
    applyRules ts v =
      match ts.find? (fun t => decide (t.containsVal v)) with
      | some t => t.destination_category + (v - t.source_start_range)
      | none => v := by
  induction ts with
  | nil => rfl
  | cons t rest ih =>
    by_cases h : t.containsVal v
    · rw [List.find?_cons_of_pos _ (by simpa using h)]
      simp only [applyRules, Transformation.apply_transformation]
      rw [if_pos h]
    · rw [List.find?_cons_of_neg _ (by simpa using h)]
      simp only [applyRules, Transformation.apply_transformation]
      rw [if_neg h]
      exact ih

/-- When no rule of the list contains the value, the rule loop falls through
to the identity. -/
theorem applyRules_id (ts : List Transformation) (v : Nat)
    (h : ∀ t ∈ ts, ¬ t.containsVal v) : applyRules ts v = v := by
  induction ts with
  | nil => rfl
  | cons t rest ih =>
    have ht : ¬ t.containsVal v := h t (List.mem_cons_self t rest)
    simpa [applyRules, Transformation.apply_transformation, ht] using
      ih fun t' ht' => h t' (List.mem_cons_of_mem t ht')

/-- Two concrete rules whose source intervals do not meet are disjoint. -/
theorem disjointSources_mk (d1 s1 r1 d2 s2 r2 : Nat)
    (h : s1 + r1 ≤ s2 ∨ s2 + r2 ≤ s1) :
    disjointSources ⟨d1, s1, r1⟩ ⟨d2, s2, r2⟩ := by
  intro v hv
  have h1 : s1 ≤ v ∧ v < s1 + r1 := hv.1
  have h2 : s2 ≤ v ∧ v < s2 + r2 := hv.2
  omega

/-- C2: a rule maps every value `v` of its source interval to
`destinationStart + (v - sourceStart)`; for the single-rule layer
`(dest=50, src=98, len=2)`, value 98 maps to 50, value 99 maps to 51, and
value 97 passes through unchanged. -/
theorem rule_offset_mapping :
    (∀ (t : Transformation) (v : Nat),
        t.source_start_range ≤ v → v < t.source_start_range + t.source_range →
        t.apply_transformation v =
          some (t.destination_category + (v - t.source_start_range))) ∧
    TransformationMap.apply_transformation ⟨[⟨50, 98, 2⟩]⟩ 98 = 50 ∧
    TransformationMap.apply_transformation ⟨[⟨50, 98, 2⟩]⟩ 99 = 51 ∧
    TransformationMap.apply_transformation ⟨[⟨50, 98, 2⟩]⟩ 97 = 97 :=
  ⟨fun t v h1 h2 => by simp [Transformation.apply_transformation, h1, h2],
   by decide, by decide, by decide⟩

/-- Witness for C2: the rule `(dest=50, src=98, len=2)` maps 99 to 51. -/
theorem rule_offset_mapping_witness :
    Transformation.apply_transformation ⟨50, 98, 2⟩ 99 = some 51 :=
  rule_offset_mapping.1 ⟨50, 98, 2⟩ 99 (by decide) (by decide)

/-- C3: a value contained in no rule's source interval passes through a layer
unchanged, and consequently a range covered by no rule maps to exactly
itself, value by value. -/
theorem identity_pass_through :
    (∀ (tm : TransformationMap) (v : Nat),
        (∀ t ∈ tm.transformations, ¬ t.containsVal v) →
        tm.apply_transformation v = v) ∧
    (∀ (tm : TransformationMap) (s l : Nat),
        (∀ t ∈ tm.transformations, ∀ u, s ≤ u → u < s + l → ¬ t.containsVal u) →
        ∀ u, s ≤ u → u < s + l → tm.apply_transformation u = u) :=
  ⟨fun tm v h => applyRules_id tm.transformations v h,
   fun tm s l h u hu1 hu2 =>
     applyRules_id tm.transformations u fun t ht => h t ht u hu1 hu2⟩

/-- Witness for C3: the layer `[(50, 98, 2)]` leaves 10 unchanged. -/
theorem identity_pass_through_witness :
    TransformationMap.apply_transformation ⟨[⟨50, 98, 2⟩]⟩ 10 = 10 :=
  identity_pass_through.1 ⟨[⟨50, 98, 2⟩]⟩ 10 (by decide)

/-- C9: a layer maps a value through the earliest rule of its stored rule
list whose source interval contains the value, and through the identity when
no rule contains it (first-match-wins). -/
theorem first_match_wins (tm : TransformationMap) (v : Nat) :
    tm.apply_transformation v =
      match tm.transformations.find? (fun t => decide (t.containsVal v)) with
      | some t => t.destination_category + (v - t.source_start_range)
      | none => v :=
  applyRules_eq_find tm.transformations v

/-- Counterexample to C4: constructing a layer from the two overlapping rules
`(0,0,5)` and `(10,3,5)` (value 3 is in both source intervals) succeeds,
storing both rules — there is no construction-time overlap error. -/
theorem overlap_construction_succeeds :
    (Transformation.containsVal ⟨0, 0, 5⟩ 3 ∧ Transformation.containsVal ⟨10, 3, 5⟩ 3) ∧
    TransformationMap.fromRuleLines [[0, 0, 5], [10, 3, 5]] =
      some ⟨[⟨0, 0, 5⟩, ⟨10, 3, 5⟩]⟩ := by
  decide

/-- C4 amended: constructing a layer from the overlapping rules `(0,0,5)` and
`(10,3,5)` succeeds with no validation; the ambiguity is resolved only at
application time by rule order (value 3, contained in both source intervals,
maps through the first rule to 3). -/
theorem overlap_resolved_by_order :
    ∃ tm, TransformationMap.fromRuleLines [[0, 0, 5], [10, 3, 5]] = some tm ∧
      tm.apply_transformation 3 = 3 :=
  ⟨⟨[⟨0, 0, 5⟩, ⟨10, 3, 5⟩]⟩, by decide, by decide⟩

/-- Counterexample to C5: a layer whose rules have pairwise-disjoint source
intervals can still map two distinct input values to the same output — with
the single rule `(10,0,5)`, input 0 is mapped to 10 while input 10 passes
through as 10. -/
theorem layer_not_injective :
    List.Pairwise disjointSources [(⟨10, 0, 5⟩ : Transformation)] ∧
    (0 : Nat) ≠ 10 ∧
    TransformationMap.apply_transformation ⟨[⟨10, 0, 5⟩]⟩ 0 =
      TransformationMap.apply_transformation ⟨[⟨10, 0, 5⟩]⟩ 10 :=
  ⟨by simp, by decide, by decide⟩

/-- C5 amended: each single rule is injective on its own source interval —
two distinct values matched by the same rule are never mapped to the same
output (collisions can only occur across rules or with identity
pass-through). -/
theorem rule_injective_on_source (t : Transformation) (v1 v2 : Nat)
    (h1 : t.containsVal v1) (h2 : t.containsVal v2)
    (heq : t.apply_transformation v1 = t.apply_transformation v2) :
    v1 = v2 := by
  unfold Transformation.apply_transformation at heq
  rw [if_pos h1, if_pos h2] at heq
  have h := Option.some.inj heq
  obtain ⟨a1, _⟩ := h1
  obtain ⟨a2, _⟩ := h2
  omega

/-- Witness for C5 amended: the rule `(10,0,5)` at values 2 and 2. -/
theorem rule_injective_on_source_witness : (2 : Nat) = 2 :=
  rule_injective_on_source ⟨10, 0, 5⟩ 2 2 (by decide) (by decide) (by decide)

/-- Counterexample to C6: with the overlapping rules `(0,0,5)` and
`(10,3,5)`, swapping the rule order changes the layer's result at value 3
(3 versus 10) — rule order is significant when sources overlap. -/
theorem rule_order_matters :
    List.Perm [(⟨0, 0, 5⟩ : Transformation), ⟨10, 3, 5⟩] [⟨10, 3, 5⟩, ⟨0, 0, 5⟩] ∧
    TransformationMap.apply_transformation ⟨[⟨0, 0, 5⟩, ⟨10, 3, 5⟩]⟩ 3 ≠
      TransformationMap.apply_transformation ⟨[⟨10, 3, 5⟩, ⟨0, 0, 5⟩]⟩ 3 :=
  ⟨List.Perm.swap _ _ _, by decide⟩

/-- C6 amended: when the rules of a layer have pairwise-disjoint source
intervals, permuting the rule list does not change the layer's result at any
value. -/
theorem rule_order_irrelevant_of_disjoint (l1 l2 : List Transformation) (v : Nat)
    (hdisj : l1.Pairwise disjointSources) (hperm : l1.Perm l2) :
    TransformationMap.apply_transformation ⟨l1⟩ v =
    TransformationMap.apply_transformation ⟨l2⟩ v := by
  have hsym : Symmetric disjointSources := fun a b h u hu => h u ⟨hu.2, hu.1⟩
  show applyRules l1 v = applyRules l2 v
  rw [applyRules_eq_find, applyRules_eq_find]
  rcases hfind1 : l1.find? (fun t => decide (t.containsVal v)) with _ | t1
  · have hnone : ∀ t ∈ l1, ¬ t.containsVal v := by
      intro t ht
      have := List.find?_eq_none.mp hfind1 t ht
      simpa using this
    have h2 : l2.find? (fun t => decide (t.containsVal v)) = none :=
      List.find?_eq_none.mpr fun t ht => by
        simpa using hnone t (hperm.mem_iff.mpr ht)
    rw [hfind1, h2]
  · have ht1mem : t1 ∈ l1 := List.mem_of_find?_eq_some hfind1
    have ht1c : t1.containsVal v := by simpa using List.find?_some hfind1
    rcases hfind2 : l2.find? (fun t => decide (t.containsVal v)) with _ | t2
    · exact absurd (by simpa using
        List.find?_eq_none.mp hfind2 t1 (hperm.mem_iff.mp ht1mem)) (by simpa using ht1c)
    · have ht2mem : t2 ∈ l1 := hperm.mem_iff.mpr (List.mem_of_find?_eq_some hfind2)
      have ht2c : t2.containsVal v := by simpa using List.find?_some hfind2
      have h12 : t1 = t2 := by
        by_contra hne
        exact hdisj.forall hsym ht1mem ht2mem hne v ⟨ht1c, ht2c⟩
      rw [hfind1, hfind2, h12]

/-- Witness for C6 amended: the two disjoint rules of the example layer give
the same result at 79 in either order. -/
theorem rule_order_irrelevant_witness :
    TransformationMap.apply_transformation ⟨[⟨50, 98, 2⟩, ⟨52, 50, 48⟩]⟩ 79 =
    TransformationMap.apply_transformation ⟨[⟨52, 50, 48⟩, ⟨50, 98, 2⟩]⟩ 79 :=
  rule_order_irrelevant_of_disjoint [⟨50, 98, 2⟩, ⟨52, 50, 48⟩]
    [⟨52, 50, 48⟩, ⟨50, 98, 2⟩] 79
    (by
      constructor
      · intro t' ht'
        simp only [List.mem_singleton] at ht'
        subst ht'
        exact disjointSources_mk 50 98 2 52 50 48 (Or.inr (by omega))
      · simp)
    (List.Perm.swap _ _ _)

/-- Counterexample to C7: on an almanac with zero seed ranges, evaluation
produces no value at all — the `Option::unwrap` of the never-set running
minimum panics (modelled `none`); no distinct `EmptySeedSet` error value is
returned to the caller, whose `u64` contract has no error channel. -/
theorem empty_seeds_panics :
    Almanac.apply_transformations_and_keep_lower_result
      ⟨[], [⟨[⟨50, 98, 2⟩]⟩]⟩ = none := by
  decide

/-- C7 amended: for every almanac with zero seed ranges, evaluation returns
no minimum value (it aborts via `unwrap` on `None`, modelled `none`) rather
than an arbitrary sentinel; no distinct `EmptySeedSet` error is surfaced. -/
theorem empty_seeds_no_result (a : Almanac) (h : a.seeds = []) :
    a.apply_transformations_and_keep_lower_result = none := by
  unfold Almanac.apply_transformations_and_keep_lower_result
  rw [h]
  rfl

/-- Witness for C7 amended: the empty almanac evaluates to `none`. -/
theorem empty_seeds_no_result_witness :
    Almanac.apply_transformations_and_keep_lower_result ⟨[], []⟩ = none :=
  empty_seeds_no_result ⟨[], []⟩ rfl

/-- The running-minimum update computes a minimum. -/
theorem lowerStep_some (k x : Nat) : lowerStep (some k) x = some (min k x) := by
  show (if x < k then some x else some k) = some (min k x)
  rcases Nat.lt_or_ge x k with h | h
  · rw [if_pos h, Nat.min_eq_right (Nat.le_of_lt h)]
  · rw [if_neg (Nat.not_lt.mpr h), Nat.min_eq_left h]

/-- Folding the running-minimum update from a set accumulator yields the
minimum of the accumulator and all list elements. -/
theorem foldl_lowerStep_some (l : List Nat) : ∀ k : Nat,
    ∃ m, l.foldl lowerStep (some k) = some m ∧ (m = k ∨ m ∈ l) ∧ m ≤ k ∧
      ∀ x ∈ l, m ≤ x := by
  induction l with
  | nil => exact fun k => ⟨k, rfl, Or.inl rfl, Nat.le_refl k, by simp⟩
  | cons x rest ih =>
    intro k
    obtain ⟨m, hm, hmem, hle, hall⟩ := ih (min k x)
    refine ⟨m, ?_, ?_, ?_, ?_⟩
    · rw [List.foldl_cons, lowerStep_some]
      exact hm
    · rcases hmem with h | h
      · subst h
        rcases Nat.le_total k x with h' | h'
        · exact Or.inl (Nat.min_eq_left h')
        · exact Or.inr (by rw [Nat.min_eq_right h']; exact List.mem_cons_self x rest)
      · exact Or.inr (List.mem_cons_of_mem x h)
    · exact Nat.le_trans hle (Nat.min_le_left k x)
    · intro y hy
      rcases List.mem_cons.mp hy with h | h
      · subst h
        exact Nat.le_trans hle (Nat.min_le_right k y)
      · exact hall y h

/-- Folding the running-minimum update from the unset accumulator over a
non-empty list yields the minimum of the list. -/
theorem foldl_lowerStep_none (l : List Nat) (hne : l ≠ []) :
    ∃ m, l.foldl lowerStep none = some m ∧ m ∈ l ∧ ∀ x ∈ l, m ≤ x := by
  cases l with
  | nil => exact absurd rfl hne
  | cons x rest =>
    obtain ⟨m, hm, hmem, hle, hall⟩ := foldl_lowerStep_some rest x
    refine ⟨m, ?_, ?_, ?_⟩
    · rw [List.foldl_cons]
      exact hm
    · rcases hmem with h | h
      · subst h
        exact List.mem_cons_self m rest
      · exact List.mem_cons_of_mem x h
    · intro y hy
      rcases List.mem_cons.mp hy with h | h
      · subst h
        exact hle
      · exact hall y h

/-- The two seed loops of the evaluation are the running-minimum fold over
the flattened list of per-seed pipeline results. -/
theorem almanac_foldl_eq (f : Nat → Nat) :
    ∀ (srs : List SeedRange) (acc : Option Nat),
    srs.foldl
      (fun lower sr =>
        (List.range sr.length).foldl
          (fun lower i => lowerStep lower (f (sr.start + i))) lower)
      acc
      = ((seedValues srs).map f).foldl lowerStep acc := by
  intro srs
  induction srs with
  | nil => intro acc; rfl
  | cons sr rest ih =>
    intro acc
    have hinner : (List.range sr.length).foldl
        (fun lower i => lowerStep lower (f (sr.start + i))) acc
        = (((List.range sr.length).map fun i => sr.start + i).map f).foldl
            lowerStep acc := by
      rw [List.foldl_map, List.foldl_map]
    rw [List.foldl_cons, hinner, ih, ← List.foldl_append, ← List.map_append]
    rfl

/-- Evaluation is the running-minimum fold over the pipeline results of all
seed values. -/
theorem apply_eq_foldl (a : Almanac) :
    a.apply_transformations_and_keep_lower_result
      = ((seedValues a.seeds).map (applyMaps a.transformation_maps)).foldl
          lowerStep none :=
  almanac_foldl_eq _ a.seeds none

/-- Membership in the flattened seed-value list is membership in some seed
range. -/
theorem mem_seedValues (srs : List SeedRange) (v : Nat) :
    v ∈ seedValues srs ↔ ∃ sr ∈ srs, sr.start ≤ v ∧ v < sr.start + sr.length := by
  induction srs with
  | nil => simp [seedValues]
  | cons sr rest ih =>
    simp only [seedValues, List.mem_append, List.mem_map, List.mem_range, ih,
      List.mem_cons]
    constructor
    · rintro (⟨i, hi, rfl⟩ | ⟨sr', hsr', h1, h2⟩)
      · exact ⟨sr, Or.inl rfl, Nat.le_add_right _ _, by omega⟩
      · exact ⟨sr', Or.inr hsr', h1, h2⟩
    · rintro ⟨sr', hsr' | hsr', h1, h2⟩
      · subst hsr'
        exact Or.inl ⟨v - sr'.start, by omega, by omega⟩
      · exact Or.inr ⟨sr', hsr', h1, h2⟩

/-- C1: for every almanac with a non-empty seed set (of positive-length
ranges), evaluation returns the minimum, over all seed values `v` lying in
some seed range, of folding `v` through every layer in order (first layer
applied first). -/
theorem evaluation_returns_minimum (a : Almanac) (h1 : a.seeds ≠ [])
    (h2 : ∀ sr ∈ a.seeds, 0 < sr.length) :
    ∃ m, a.apply_transformations_and_keep_lower_result = some m ∧
      (∃ v, a.inSeedRanges v ∧ applyMaps a.transformation_maps v = m) ∧
      (∀ v, a.inSeedRanges v → m ≤ applyMaps a.transformation_maps v) := by
  obtain ⟨sr0, rest, hseeds⟩ : ∃ sr0 rest, a.seeds = sr0 :: rest := by
    cases hs : a.seeds with
    | nil => exact absurd hs h1
    | cons x xs => exact ⟨x, xs, rfl⟩
  have hsr0 : sr0 ∈ a.seeds := by
    rw [hseeds]
    exact List.mem_cons_self sr0 rest
  have hv0 : sr0.start ∈ seedValues a.seeds :=
    (mem_seedValues _ _).mpr
      ⟨sr0, hsr0, Nat.le_refl _, by have := h2 sr0 hsr0; omega⟩
  have hne : (seedValues a.seeds).map (applyMaps a.transformation_maps) ≠ [] :=
    List.ne_nil_of_mem (List.mem_map_of_mem _ hv0)
  obtain ⟨m, hm, hmem, hall⟩ := foldl_lowerStep_none _ hne
  refine ⟨m, ?_, ?_, ?_⟩
  · rw [apply_eq_foldl]
    exact hm
  · obtain ⟨v, hv, rfl⟩ := List.mem_map.mp hmem
    exact ⟨v, (mem_seedValues _ _).mp hv, rfl⟩
  · intro v hv
    exact hall _ (List.mem_map_of_mem _ ((mem_seedValues _ _).mpr hv))

/-- Witness for C1: the almanac with the single seed range `(5, 2)` and no
layers evaluates to the minimum of its pipeline results. -/
theorem evaluation_returns_minimum_witness :
    ∃ m, Almanac.apply_transformations_and_keep_lower_result ⟨[⟨5, 2⟩], []⟩ = some m ∧
      (∃ v, Almanac.inSeedRanges ⟨[⟨5, 2⟩], []⟩ v ∧ applyMaps [] v = m) ∧
      (∀ v, Almanac.inSeedRanges ⟨[⟨5, 2⟩], []⟩ v → m ≤ applyMaps [] v) :=
  evaluation_returns_minimum ⟨[⟨5, 2⟩], []⟩ (by decide) (by decide)

/-- Summing a pointwise-constant map gives the constant times the length. -/
theorem sum_map_of_const {α : Type} (l : List α) (f : α → Nat) (c : Nat)
    (h : ∀ x ∈ l, f x = c) : (l.map f).sum = c * l.length := by
  induction l with
  | nil => simp
  | cons x rest ih =>
    rw [List.map_cons, List.sum_cons, h x (List.mem_cons_self x rest),
      ih fun y hy => h y (List.mem_cons_of_mem x hy), List.length_cons,
      Nat.mul_succ]
    omega

/-- The single-rule example layer costs exactly one rule comparison per
seed, whether or not the rule matches. -/
theorem cost_example_const (v : Nat) :
    1 + pipelineCost [⟨[⟨50, 98, 2⟩]⟩] v = 2 := by
  have h1 : applyRulesCost [⟨50, 98, 2⟩] v = 1 := by
    rcases h : Transformation.apply_transformation ⟨50, 98, 2⟩ v with _ | r <;>
      simp [applyRulesCost, h]
  show 1 + (applyRulesCost [⟨50, 98, 2⟩] v + pipelineCost [] _) = 2
  rw [h1]
  rfl

/-- The flattened seed-value list has one entry per unit of range length. -/
theorem seedValues_length :
    ∀ srs : List SeedRange,
    (seedValues srs).length = (srs.map SeedRange.length).sum := by
  intro srs
  induction srs with
  | nil => rfl
  | cons sr rest ih =>
    simp [seedValues, ih]

/-- Counterexample to C8: with one seed range, one layer and one rule in
both cases, growing the range length from 10 to 10^9 grows the instrumented
work from 20 to 2·10^9 steps — the evaluation enumerates every integer of
the range, so its cost scales with the numeric magnitude of the range
length. -/
theorem enumeration_cost_scales :
    Almanac.evalCost ⟨[⟨0, 10⟩], [⟨[⟨50, 98, 2⟩]⟩]⟩ = 20 ∧
    Almanac.evalCost ⟨[⟨0, 1000000000⟩], [⟨[⟨50, 98, 2⟩]⟩]⟩ = 2000000000 := by
  constructor <;>
    · unfold Almanac.evalCost
      rw [sum_map_of_const _ _ 2 fun v _ => cost_example_const v,
        seedValues_length]
      rfl

/-- Every list is no longer than the sum of a map whose entries are all at
least 1. -/
theorem length_le_sum_succ (g : Nat → Nat) (l : List Nat) :
    l.length ≤ (l.map fun v => 1 + g v).sum := by
  induction l with
  | nil => simp
  | cons x rest ih =>
    rw [List.length_cons, List.map_cons, List.sum_cons]
    omega

/-- C8 amended: the instrumented work of evaluation is at least the total
number of individual seed values, i.e. the sum of all range lengths — the
cost is not independent of the numeric magnitude of range lengths. -/
theorem cost_at_least_total_seed_count (a : Almanac) :
    (a.seeds.map SeedRange.length).sum ≤ a.evalCost := by
  unfold Almanac.evalCost
  rw [← seedValues_length a.seeds]
  exact length_le_sum_succ _ _

/-- The indexed seed loop, started at an even index, folds the consecutive
pairs of the remaining numbers into the accumulator set. -/
theorem seedRangeLoop_eq_pairs (n : Nat) :
    ∀ nums : List Nat, nums.length ≤ n →
    ∀ (idx last : Nat) (acc : List SeedRange), idx % 2 = 0 →
    seedRangeLoop idx last acc nums = (pairsOf nums).foldl insertSeedRange acc := by
  induction n with
  | zero =>
    intro nums hlen
    have hnil : nums = [] := List.eq_nil_of_length_eq_zero (Nat.le_zero.mp hlen)
    subst hnil
    intro idx last acc _
    rfl
  | succ n ih =>
    intro nums hlen idx last acc hidx
    rcases nums with _ | ⟨a, _ | ⟨b, rest⟩⟩
    · rfl
    · show (if idx % 2 = 0
          then seedRangeLoop (idx + 1) a acc []
          else seedRangeLoop (idx + 1) last (insertSeedRange acc ⟨last, a⟩) []) = _
      rw [if_pos hidx]
      rfl
    · have h1 : ¬ (idx + 1) % 2 = 0 := by omega
      have h2 : (idx + 2) % 2 = 0 := by omega
      have hlen' : rest.length ≤ n := by
        simp only [List.length_cons] at hlen
        omega
      show (if idx % 2 = 0
          then seedRangeLoop (idx + 1) a acc (b :: rest)
          else seedRangeLoop (idx + 1) last (insertSeedRange acc ⟨last, a⟩) (b :: rest)) = _
      rw [if_pos hidx]
      show (if (idx + 1) % 2 = 0
          then seedRangeLoop (idx + 2) b acc rest
          else seedRangeLoop (idx + 2) a (insertSeedRange acc ⟨a, b⟩) rest) = _
      rw [if_neg h1, ih rest hlen' (idx + 2) a (insertSeedRange acc ⟨a, b⟩) h2]
      rfl

/-- The parsed seed set is the fold of the consecutive pairs into the empty
set. -/
theorem parseSeedRanges_eq_pairs (nums : List Nat) :
    parseSeedRanges nums = (pairsOf nums).foldl insertSeedRange [] :=
  seedRangeLoop_eq_pairs nums.length nums (Nat.le_refl _) 0 0 [] rfl

/-- Membership after folding set inserts is membership in the accumulator or
in the inserted list. -/
theorem mem_foldl_insertSeedRange :
    ∀ (ps acc : List SeedRange) (r : SeedRange),
    r ∈ ps.foldl insertSeedRange acc ↔ r ∈ acc ∨ r ∈ ps := by
  intro ps
  induction ps with
  | nil =>
    intro acc r
    simp
  | cons p ps ih =>
    intro acc r
    rw [List.foldl_cons, ih]
    unfold insertSeedRange
    by_cases hp : p ∈ acc
    · rw [if_pos hp]
      simp only [List.mem_cons]
      constructor
      · rintro (h | h)
        · exact Or.inl h
        · exact Or.inr (Or.inr h)
      · rintro (h | h | h)
        · exact Or.inl h
        · exact Or.inl (h ▸ hp)
        · exact Or.inr h
    · rw [if_neg hp]
      simp [List.mem_append, List.mem_cons, or_assoc]

/-- Folding set inserts preserves freedom from duplicates. -/
theorem nodup_foldl_insertSeedRange :
    ∀ (ps acc : List SeedRange), acc.Nodup →
    (ps.foldl insertSeedRange acc).Nodup := by
  intro ps
  induction ps with
  | nil =>
    intro acc h
    exact h
  | cons p ps ih =>
    intro acc h
    rw [List.foldl_cons]
    apply ih
    unfold insertSeedRange
    by_cases hp : p ∈ acc
    · rw [if_pos hp]
      exact h
    · rw [if_neg hp]
      simp [List.nodup_append, h, hp]

/-- A range is a consecutive pair of the number list exactly when its fields
sit at positions `2*i` and `2*i+1`. -/
theorem mem_pairsOf (n : Nat) :
    ∀ nums : List Nat, nums.length ≤ n → ∀ r : SeedRange,
    (r ∈ pairsOf nums ↔
      ∃ i, nums[2 * i]? = some r.start ∧ nums[2 * i + 1]? = some r.length) := by
  induction n with
  | zero =>
    intro nums hlen r
    have hnil : nums = [] := List.eq_nil_of_length_eq_zero (Nat.le_zero.mp hlen)
    subst hnil
    simp [pairsOf]
  | succ n ih =>
    intro nums hlen r
    rcases nums with _ | ⟨a, _ | ⟨b, rest⟩⟩
    · simp [pairsOf]
    · constructor
      · intro h
        exact absurd h (by simp [pairsOf])
      · rintro ⟨i, h1, h2⟩
        have : ([a] : List Nat)[2 * i + 1]? = none :=
          List.getElem?_eq_none (by simp)
        rw [this] at h2
        exact absurd h2 (by simp)
    · have hlen' : rest.length ≤ n := by
        simp only [List.length_cons] at hlen
        omega
      rw [show pairsOf (a :: b :: rest) = ⟨a, b⟩ :: pairsOf rest from rfl,
        List.mem_cons, ih rest hlen' r]
      constructor
      · rintro (h | ⟨i, h1, h2⟩)
        · subst h
          refine ⟨0, ?_, ?_⟩
          · rw [show 2 * 0 = 0 from rfl, List.getElem?_cons_zero]
          · rw [show 2 * 0 + 1 = 0 + 1 from rfl, List.getElem?_cons_succ,
              List.getElem?_cons_zero]
        · refine ⟨i + 1, ?_, ?_⟩
          · have he : 2 * (i + 1) = 2 * i + 1 + 1 := by omega
            rw [he, List.getElem?_cons_succ, List.getElem?_cons_succ]
            exact h1
          · have he : 2 * (i + 1) + 1 = 2 * i + 1 + 1 + 1 := by omega
            rw [he, List.getElem?_cons_succ, List.getElem?_cons_succ]
            exact h2
      · rintro ⟨i, h1, h2⟩
        cases i with
        | zero =>
          left
          rw [show 2 * 0 = 0 from rfl, List.getElem?_cons_zero] at h1
          rw [show 2 * 0 + 1 = 0 + 1 from rfl, List.getElem?_cons_succ,
            List.getElem?_cons_zero] at h2
          have hs : r.start = a := (Option.some.inj h1).symm
          have hl : r.length = b := (Option.some.inj h2).symm
          cases r
          simp_all
        | succ i' =>
          right
          refine ⟨i', ?_, ?_⟩
          · have he : 2 * (i' + 1) = 2 * i' + 1 + 1 := by omega
            rw [he, List.getElem?_cons_succ, List.getElem?_cons_succ] at h1
            exact h1
          · have he : 2 * (i' + 1) + 1 = 2 * i' + 1 + 1 + 1 := by omega
            rw [he, List.getElem?_cons_succ, List.getElem?_cons_succ] at h2
            exact h2

/-- An odd-length number list yields the same consecutive pairs as that list
without its last element. -/
theorem pairsOf_dropLast (n : Nat) :
    ∀ nums : List Nat, nums.length ≤ n → nums.length % 2 = 1 →
    pairsOf nums = pairsOf nums.dropLast := by
  induction n with
  | zero =>
    intro nums hlen hodd
    have hnil : nums = [] := List.eq_nil_of_length_eq_zero (Nat.le_zero.mp hlen)
    subst hnil
    exact absurd hodd (by simp)
  | succ n ih =>
    intro nums hlen hodd
    rcases nums with _ | ⟨a, _ | ⟨b, rest⟩⟩
    · exact absurd hodd (by simp)
    · rfl
    · have hlen' : rest.length ≤ n := by
        simp only [List.length_cons] at hlen
        omega
      have hodd' : rest.length % 2 = 1 := by
        simp only [List.length_cons] at hodd
        omega
      rcases rest with _ | ⟨c, rest'⟩
      · exact absurd hodd' (by simp)
      · show pairsOf (a :: b :: c :: rest')
          = pairsOf ((a :: b :: c :: rest').dropLast)
        have hdl : (a :: b :: c :: rest').dropLast
            = a :: b :: (c :: rest').dropLast := rfl
        rw [hdl]
        show ⟨a, b⟩ :: pairsOf (c :: rest') = _
        have hrec := ih (c :: rest') hlen' hodd'
        rw [hrec]
        rfl

/-- C10: in `SeedRange` mode the seed numbers are consumed as consecutive
`(start, length)` pairs — a range is in the parsed set exactly when it is
the pair at positions `2*i`, `2*i+1` — the parsed set has no duplicates
(equal pairs are collapsed by the set insert), and an odd trailing number is
silently ignored. -/
theorem seed_pairs_parsing (nums : List Nat) :
    (∀ r : SeedRange, r ∈ parseSeedRanges nums ↔
        ∃ i, nums[2 * i]? = some r.start ∧ nums[2 * i + 1]? = some r.length) ∧
    (parseSeedRanges nums).Nodup ∧
    (nums.length % 2 = 1 → parseSeedRanges nums = parseSeedRanges nums.dropLast) := by
  refine ⟨?_, ?_, ?_⟩
  · intro r
    rw [parseSeedRanges_eq_pairs, mem_foldl_insertSeedRange]
    simp only [List.not_mem_nil, false_or]
    exact mem_pairsOf nums.length nums (Nat.le_refl _) r
  · rw [parseSeedRanges_eq_pairs]
    exact nodup_foldl_insertSeedRange _ _ List.nodup_nil
  · intro hodd
    rw [parseSeedRanges_eq_pairs, parseSeedRanges_eq_pairs,
      ← pairsOf_dropLast nums.length nums (Nat.le_refl _) hodd]

/-- Witness for C10: on the odd seed line `[1, 2, 3]`, the trailing 3 is
ignored and the pair `(1, 2)` is parsed. -/
theorem seed_pairs_parsing_witness :
    parseSeedRanges [1, 2, 3] = parseSeedRanges ([1, 2, 3].dropLast) ∧
    (⟨1, 2⟩ : SeedRange) ∈ parseSeedRanges [1, 2, 3] :=
  ⟨(seed_pairs_parsing [1, 2, 3]).2.2 (by decide),
   ((seed_pairs_parsing [1, 2, 3]).1 ⟨1, 2⟩).mpr ⟨0, by decide, by decide⟩⟩

end Day05
